import Mathlib

/-!
Verification of the `hccinfhir` edit engine (`model_edits.py`) and the
reference-table loader (`utils.py`).

Python dictionaries are modelled as insertion-ordered association lists
(`Dict α β := List (α × β)`): assignment to an existing key updates the value
in place, assignment to a fresh key appends at the end, and `del` removes the
key, exactly as CPython dicts behave.  Python sets of strings are modelled as
duplicate-free lists with `setAdd`/`filter`.
-/

namespace HCCInFHIR

/-- A Python dict modelled as an insertion-ordered association list. -/
abbrev Dict (α β : Type) := List (α × β)

/-- `m[k]` lookup (first entry whose key matches). -/
def dictLookup {α β : Type} [DecidableEq α] : Dict α β → α → Option β
  | [], _ => none
  | (k, v) :: rest, a => if k = a then some v else dictLookup rest a

/-- `m[k] = v`: update in place when the key exists, append otherwise. -/
def dictInsert {α β : Type} [DecidableEq α] : Dict α β → α → β → Dict α β
  | [], a, b => [(a, b)]
  | (k, v) :: rest, a, b =>
    if k = a then (a, b) :: rest else (k, v) :: dictInsert rest a b

/-- `del m[k]`. -/
def dictErase {α β : Type} [DecidableEq α] : Dict α β → α → Dict α β
  | [], _ => []
  | (k, v) :: rest, a =>
    if k = a then dictErase rest a else (k, v) :: dictErase rest a

/-- The keys of the association list are pairwise distinct (true of every
actual Python dict). -/
def NodupKeys {α β : Type} (m : Dict α β) : Prop := (m.map Prod.fst).Nodup

/-- Python `set.add` on a set of strings modelled as a duplicate-free list. -/
def setAdd (s : List String) (x : String) : List String :=
  if x ∈ s then s else s ++ [x]

/-- One row of `ra_dx_edits.csv`, from `model_edits.EditRule`. -/
structure EditRule where
  edit_type : String
  sex : Option String
  age_min : Option Int
  age_max : Option Int
  action : String
  cc_override : Option String
  deriving DecidableEq

/-- Sex normalization at the top of `apply_edits`: `'M' ↦ '1'`, `'F' ↦ '2'`,
anything else unchanged. -/
def normalizeSex (sex : String) : String :=
  if sex = "M" then "1" else if sex = "F" then "2" else sex

/-- `rule.age_max is not None and age <= rule.age_max`. -/
def ageMaxApplies (rule : EditRule) (age : Int) : Bool :=
  match rule.age_max with
  | some m => decide (age ≤ m)
  | none => false

/-- `rule.age_min is not None and age >= rule.age_min`. -/
def ageMinApplies (rule : EditRule) (age : Int) : Bool :=
  match rule.age_min with
  | some m => decide (m ≤ age)
  | none => false

/-- The `should_apply` computation inside the rule loop of `apply_edits`:
a `sex` rule applies when `rule.sex == sex_normalized`; an `age` rule applies
when the `age_max` test fires, `elif` the `age_min` test fires. -/
def shouldApply (rule : EditRule) (age : Int) (sexNormalized : String) : Bool :=
  if rule.edit_type = "sex" then
    decide (rule.sex = some sexNormalized)
  else if rule.edit_type = "age" then
    if ageMaxApplies rule age then true else ageMinApplies rule age
  else false

/-- `all_dx_to_cc`: iterate the CC→diagnoses dict and record `dx ↦ cc` for
every diagnosis; a diagnosis under several CCs keeps the last assignment. -/
def buildDxToCC (cc_to_dx : Dict String (List String)) : Dict String String :=
  cc_to_dx.foldl (fun acc p => p.2.foldl (fun a dx => dictInsert a dx p.1) acc) []

/-- Python truthiness of an `Optional[str]`: `None` and `""` are falsy. -/
def truthyStr : Option String → Bool
  | none => false
  | some s => decide (s ≠ "")

/-- One iteration of the rule loop of `apply_edits`: look up the edit rule for
`(dx, model_name)` and record the diagnosis in `dx_to_remove` (action
`invalid`) or `dx_to_override` (action `override` with truthy `cc_override`). -/
def editStep (edits_mapping : Dict (String × String) EditRule) (age : Int)
    (sexNormalized : String) (model_name : String)
    (acc : Dict String String × Dict String (String × String))
    (p : String × String) : Dict String String × Dict String (String × String) :=
  match dictLookup edits_mapping (p.1, model_name) with
  | none => acc
  | some rule =>
    if shouldApply rule age sexNormalized then
      if rule.action = "invalid" then
        (dictInsert acc.1 p.1 p.2, acc.2)
      else if rule.action = "override" then
        if truthyStr rule.cc_override then
          (acc.1, dictInsert acc.2 p.1 (p.2, rule.cc_override.getD ""))
        else acc
      else acc
    else acc

/-- The rule loop of `apply_edits`: produces `(dx_to_remove, dx_to_override)`. -/
def computeEdits (all_dx_to_cc : Dict String String)
    (edits_mapping : Dict (String × String) EditRule) (age : Int)
    (sexNormalized : String) (model_name : String) :
    Dict String String × Dict String (String × String) :=
  all_dx_to_cc.foldl (editStep edits_mapping age sexNormalized model_name) ([], [])

/-- The removal body shared by both apply loops of `apply_edits`: discard `dx`
from `cc_to_dx[original_cc]` when present, deleting the CC key if its set
becomes empty. -/
def applyRemoval (m : Dict String (List String)) (dx original_cc : String) :
    Dict String (List String) :=
  match dictLookup m original_cc with
  | none => m
  | some dxs =>
    if dx ∈ dxs then
      if dxs.filter (fun d => decide (d ≠ dx)) = [] then dictErase m original_cc
      else dictInsert m original_cc (dxs.filter (fun d => decide (d ≠ dx)))
    else m

/-- The `dx_to_remove` apply loop of `apply_edits`. -/
def applyRemovals (removals : Dict String String) (m : Dict String (List String)) :
    Dict String (List String) :=
  removals.foldl (fun acc p => applyRemoval acc p.1 p.2) m

/-- One iteration of the `dx_to_override` apply loop: remove `dx` from its
original CC, then add it under `new_cc`, creating that key (at the end of the
dict) if absent. -/
def applyOverride (m : Dict String (List String)) (dx original_cc new_cc : String) :
    Dict String (List String) :=
  match dictLookup (applyRemoval m dx original_cc) new_cc with
  | some dxs => dictInsert (applyRemoval m dx original_cc) new_cc (setAdd dxs dx)
  | none => applyRemoval m dx original_cc ++ [(new_cc, [dx])]

/-- The `dx_to_override` apply loop of `apply_edits`. -/
def applyOverrides (overrides : Dict String (String × String))
    (m : Dict String (List String)) : Dict String (List String) :=
  overrides.foldl (fun acc p => applyOverride acc p.1 p.2.1 p.2.2) m

/-- `model_edits.apply_edits`: normalize sex, build `all_dx_to_cc`, run the
rule loop, then apply removals followed by overrides. -/
def apply_edits (cc_to_dx : Dict String (List String)) (age : Int) (sex : String)
    (model_name : String) (edits_mapping : Dict (String × String) EditRule) :
    Dict String (List String) :=
  applyOverrides
    (computeEdits (buildDxToCC cc_to_dx) edits_mapping age (normalizeSex sex) model_name).2
    (applyRemovals
      (computeEdits (buildDxToCC cc_to_dx) edits_mapping age (normalizeSex sex) model_name).1
      cc_to_dx)

/-- The diagnosis set stored under a CC key (empty when the key is absent). -/
def dxsOf (m : Dict String (List String)) (cc : String) : List String :=
  (dictLookup m cc).getD []

/-- Every diagnosis code appears under at most one CC key. -/
def AtMostOneCC (m : Dict String (List String)) : Prop :=
  ∀ dx cc1 cc2, dx ∈ dxsOf m cc1 → dx ∈ dxsOf m cc2 → cc1 = cc2

/-- No CC key holds an empty diagnosis set. -/
def NoEmptyCC (m : Dict String (List String)) : Prop :=
  ∀ cc dxs, dictLookup m cc = some dxs → dxs ≠ []

/-- ASCII whitespace, for Python `str.strip()`. -/
def isSpaceChar (c : Char) : Bool := c == ' ' || c == '\t' || c == '\n' || c == '\r'

/-- Python `line.strip()`: drop leading and trailing whitespace. -/
def strip (s : String) : String :=
  String.mk (((s.data.dropWhile isSpaceChar).reverse.dropWhile isSpaceChar).reverse)

/-- Worker for `split(',')`: accumulate the current field in reverse. -/
def splitOnCommaAux : List Char → List Char → List String
  | [], cur => [String.mk cur.reverse]
  | c :: rest, cur =>
    if c = ',' then String.mk cur.reverse :: splitOnCommaAux rest []
    else splitOnCommaAux rest (c :: cur)

/-- Python `s.split(',')` (always at least one field). -/
def splitOnComma (s : String) : List String := splitOnCommaAux s.data []

/-- One data line of the dx→CC reference table:
`diagnosis_code, cc, model_name = line.strip().split(',')`; `none` when the
unpacking raises `ValueError` (field count ≠ 3). -/
def parseMappingLine (line : String) : Option (String × String × String) :=
  match splitOnComma (strip line) with
  | [diagnosis_code, cc, model_name] => some (diagnosis_code, cc, model_name)
  | _ => none

/-- Loader body for one well-formed row: start `{cc}` for a fresh
`(diagnosis_code, model_name)` key, otherwise `add(cc)` to the existing set. -/
def insertMappingRow (mapping : Dict (String × String) (List String))
    (diagnosis_code cc model_name : String) : Dict (String × String) (List String) :=
  match dictLookup mapping (diagnosis_code, model_name) with
  | none => dictInsert mapping (diagnosis_code, model_name) [cc]
  | some s => dictInsert mapping (diagnosis_code, model_name) (setAdd s cc)

/-- One iteration of the loading loop: a well-formed row is inserted,
a malformed one is skipped via `continue`. -/
def loadRow (mapping : Dict (String × String) (List String)) (line : String) :
    Dict (String × String) (List String) :=
  match parseMappingLine line with
  | some r => insertMappingRow mapping r.1 r.2.1 r.2.2
  | none => mapping

/-- The loading loop of `utils.load_dx_to_cc_mapping` over the data rows. -/
def loadRows (rows : List String) (mapping : Dict (String × String) (List String)) :
    Dict (String × String) (List String) :=
  rows.foldl loadRow mapping

/-- `utils.load_dx_to_cc_mapping` on already-split file content: skip the
header line, then fold the loading loop over the data lines. -/
def load_dx_to_cc_mapping (lines : List String) : Dict (String × String) (List String) :=
  loadRows (lines.drop 1) []

/-! ### Basic association-list lemmas -/

@[simp] theorem dictLookup_nil {α β : Type} [DecidableEq α] (a : α) :
    dictLookup ([] : Dict α β) a = none := rfl

theorem dictLookup_cons {α β : Type} [DecidableEq α] (k : α) (v : β) (rest : Dict α β)
    (a : α) : dictLookup ((k, v) :: rest) a = if k = a then some v else dictLookup rest a :=
  rfl

theorem dictInsert_cons {α β : Type} [DecidableEq α] (k : α) (v : β) (rest : Dict α β)
    (a : α) (b : β) : dictInsert ((k, v) :: rest) a b =
      if k = a then (a, b) :: rest else (k, v) :: dictInsert rest a b :=
  rfl

theorem dictErase_cons {α β : Type} [DecidableEq α] (k : α) (v : β) (rest : Dict α β)
    (a : α) : dictErase ((k, v) :: rest) a =
      if k = a then dictErase rest a else (k, v) :: dictErase rest a :=
  rfl

theorem dictLookup_insert {α β : Type} [DecidableEq α] (m : Dict α β) (k j : α) (v : β) :
    dictLookup (dictInsert m k v) j = if k = j then some v else dictLookup m j := by
  induction m with
  | nil =>
    by_cases hj : k = j <;> simp [dictInsert, dictLookup_cons, hj]
  | cons p rest ih =>
    obtain ⟨k', v'⟩ := p
    rw [dictInsert_cons]
    by_cases h : k' = k
    · rw [if_pos h, dictLookup_cons, dictLookup_cons]
      by_cases hj : k = j
      · rw [if_pos hj, if_pos hj]
      · rw [if_neg hj, if_neg hj, if_neg (h ▸ hj)]
    · rw [if_neg h, dictLookup_cons, dictLookup_cons, ih]
      by_cases hj : k' = j
      · rw [if_pos hj, if_pos hj, if_neg (fun hkj => h (hkj.trans hj.symm).symm)]
      · rw [if_neg hj, if_neg hj]

theorem dictLookup_erase {α β : Type} [DecidableEq α] (m : Dict α β) (k j : α) :
    dictLookup (dictErase m k) j = if k = j then none else dictLookup m j := by
  induction m with
  | nil => by_cases hj : k = j <;> simp [dictErase, hj]
  | cons p rest ih =>
    obtain ⟨k', v'⟩ := p
    rw [dictErase_cons]
    by_cases h : k' = k
    · rw [if_pos h, ih, dictLookup_cons]
      by_cases hj : k = j
      · rw [if_pos hj, if_pos hj]
      · rw [if_neg hj, if_neg hj, if_neg (fun hkj => hj (h.symm.trans hkj))]
    · rw [if_neg h, dictLookup_cons, dictLookup_cons, ih]
      by_cases hj : k' = j
      · rw [if_pos hj, if_pos hj, if_neg (fun hkj => h (hkj.trans hj.symm).symm)]
      · rw [if_neg hj, if_neg hj]

theorem dictLookup_append_none {α β : Type} [DecidableEq α] {m : Dict α β} {j : α}
    (l : Dict α β) (h : dictLookup m j = none) :
    dictLookup (m ++ l) j = dictLookup l j := by
  induction m with
  | nil => simp
  | cons p rest ih =>
    obtain ⟨k', v'⟩ := p
    rw [dictLookup_cons] at h
    by_cases hj : k' = j
    · rw [if_pos hj] at h; exact absurd h (by simp)
    · rw [if_neg hj] at h
      rw [List.cons_append, dictLookup_cons, if_neg hj]
      exact ih h

theorem dictLookup_append_some {α β : Type} [DecidableEq α] {m : Dict α β} {j : α} {v : β}
    (l : Dict α β) (h : dictLookup m j = some v) :
    dictLookup (m ++ l) j = some v := by
  induction m with
  | nil => simp at h
  | cons p rest ih =>
    obtain ⟨k', v'⟩ := p
    rw [dictLookup_cons] at h
    rw [List.cons_append, dictLookup_cons]
    by_cases hj : k' = j
    · rwa [if_pos hj] at h ⊢
    · rw [if_neg hj] at h ⊢
      exact ih h

theorem dictLookup_mem {α β : Type} [DecidableEq α] {m : Dict α β} {k : α} {v : β}
    (h : dictLookup m k = some v) : (k, v) ∈ m := by
  induction m with
  | nil => simp at h
  | cons p rest ih =>
    obtain ⟨k', v'⟩ := p
    rw [dictLookup_cons] at h
    by_cases hj : k' = k
    · rw [if_pos hj] at h
      have hv : v' = v := by injection h
      subst hj; subst hv; simp
    · rw [if_neg hj] at h
      exact List.mem_cons_of_mem _ (ih h)

theorem dictLookup_eq_none_iff {α β : Type} [DecidableEq α] {m : Dict α β} {k : α} :
    dictLookup m k = none ↔ ∀ p ∈ m, p.1 ≠ k := by
  induction m with
  | nil => simp
  | cons p rest ih =>
    obtain ⟨k', v'⟩ := p
    rw [dictLookup_cons]
    by_cases hj : k' = k
    · subst hj
      simp
    · rw [if_neg hj]
      simp [ih, hj]

theorem mem_dictLookup {α β : Type} [DecidableEq α] {m : Dict α β} {k : α} {v : β}
    (hn : NodupKeys m) (h : (k, v) ∈ m) : dictLookup m k = some v := by
  induction m with
  | nil => simp at h
  | cons p rest ih =>
    obtain ⟨k', v'⟩ := p
    have hn' : k' ∉ rest.map Prod.fst ∧ NodupKeys rest := by
      simpa [NodupKeys, List.nodup_cons] using hn
    rw [dictLookup_cons]
    rcases List.mem_cons.mp h with h1 | h1
    · have hk : k' = k := by injection h1.symm with h2 h3
      have hv : v' = v := by injection h1.symm with h2 h3
      rw [if_pos hk, hv]
    · have hne : k' ≠ k := by
        intro hkk
        subst hkk
        exact hn'.1 (List.mem_map.mpr ⟨(k', v), h1, rfl⟩)
      rw [if_neg hne]
      exact ih hn'.2 h1

theorem mem_dictInsert {α β : Type} [DecidableEq α] {m : Dict α β} {k : α} {v : β}
    {p : α × β} (h : p ∈ dictInsert m k v) : p ∈ m ∨ p = (k, v) := by
  induction m with
  | nil => simpa [dictInsert] using h
  | cons q rest ih =>
    obtain ⟨kq, vq⟩ := q
    rw [dictInsert_cons] at h
    by_cases hq : kq = k
    · rw [if_pos hq] at h
      rcases List.mem_cons.mp h with h1 | h1
      · right; exact h1
      · left; exact List.mem_cons_of_mem _ h1
    · rw [if_neg hq] at h
      rcases List.mem_cons.mp h with h1 | h1
      · left; simp [h1]
      · rcases ih h1 with h2 | h2
        · left; exact List.mem_cons_of_mem _ h2
        · right; exact h2

theorem nodupKeys_dictInsert {α β : Type} [DecidableEq α] {m : Dict α β}
    (hn : NodupKeys m) (k : α) (v : β) : NodupKeys (dictInsert m k v) := by
  induction m with
  | nil => simp [dictInsert, NodupKeys]
  | cons p rest ih =>
    obtain ⟨k', v'⟩ := p
    have hn' : k' ∉ rest.map Prod.fst ∧ NodupKeys rest := by
      simpa [NodupKeys, List.nodup_cons] using hn
    rw [dictInsert_cons]
    by_cases h : k' = k
    · rw [if_pos h]
      subst h
      simpa [NodupKeys, List.nodup_cons] using hn'
    · rw [if_neg h]
      have htail := ih hn'.2
      simp only [NodupKeys, List.map_cons, List.nodup_cons]
      refine ⟨?_, htail⟩
      intro hmem
      rcases List.mem_map.mp hmem with ⟨p', hp', hfst⟩
      rcases mem_dictInsert hp' with h1 | h1
      · exact hn'.1 (List.mem_map.mpr ⟨p', h1, hfst⟩)
      · rw [h1] at hfst
        exact h hfst.symm

theorem mem_setAdd {s : List String} {x y : String} :
    x ∈ setAdd s y ↔ x ∈ s ∨ x = y := by
  by_cases h : y ∈ s
  · simp only [setAdd, if_pos h]
    constructor
    · exact Or.inl
    · rintro (h1 | rfl)
      · exact h1
      · exact h
  · simp [setAdd, if_neg h]

theorem setAdd_ne_nil (s : List String) (x : String) : setAdd s x ≠ [] := by
  by_cases h : x ∈ s
  · simp only [setAdd, if_pos h]
    intro hnil
    subst hnil
    simp at h
  · simp [setAdd, if_neg h]

theorem mem_filter_ne {l : List String} {d x : String} :
    d ∈ l.filter (fun e => decide (e ≠ x)) ↔ d ∈ l ∧ d ≠ x := by
  simp [List.mem_filter]

theorem applyRemoval_none {m : Dict String (List String)} {dx cc : String}
    (h : dictLookup m cc = none) : applyRemoval m dx cc = m := by
  unfold applyRemoval
  rw [h]

theorem applyRemoval_some {m : Dict String (List String)} {dx cc : String}
    {dxs : List String} (h : dictLookup m cc = some dxs) :
    applyRemoval m dx cc =
      if dx ∈ dxs then
        if dxs.filter (fun e => decide (e ≠ dx)) = [] then dictErase m cc
        else dictInsert m cc (dxs.filter (fun e => decide (e ≠ dx)))
      else m := by
  unfold applyRemoval
  rw [h]

theorem applyOverride_none {m : Dict String (List String)} {dx cc nc : String}
    (h : dictLookup (applyRemoval m dx cc) nc = none) :
    applyOverride m dx cc nc = applyRemoval m dx cc ++ [(nc, [dx])] := by
  unfold applyOverride
  rw [h]

theorem applyOverride_some {m : Dict String (List String)} {dx cc nc : String}
    {dxs : List String} (h : dictLookup (applyRemoval m dx cc) nc = some dxs) :
    applyOverride m dx cc nc = dictInsert (applyRemoval m dx cc) nc (setAdd dxs dx) := by
  unfold applyOverride
  rw [h]

/-- Removing `dx` from `cc` changes membership exactly at the pair `(cc, dx)`. -/
theorem mem_dxsOf_applyRemoval (m : Dict String (List String)) (dx cc d cc' : String) :
    d ∈ dxsOf (applyRemoval m dx cc) cc' ↔ d ∈ dxsOf m cc' ∧ ¬(cc' = cc ∧ d = dx) := by
  cases hlk : dictLookup m cc with
  | none =>
    rw [applyRemoval_none hlk]
    by_cases hcc : cc' = cc
    · have h0 : dxsOf m cc' = [] := by rw [hcc]; simp [dxsOf, hlk]
      simp [h0]
    · simp [hcc]
  | some dxs =>
    have h0 : dxsOf m cc = dxs := by simp [dxsOf, hlk]
    rw [applyRemoval_some hlk]
    by_cases hdx : dx ∈ dxs
    · rw [if_pos hdx]
      by_cases hnil : dxs.filter (fun e => decide (e ≠ dx)) = []
      · rw [if_pos hnil]
        by_cases hcc : cc' = cc
        · have hek : dxsOf (dictErase m cc) cc' = [] := by
            rw [hcc]
            simp [dxsOf, dictLookup_erase]
          rw [hek]
          simp only [List.not_mem_nil, false_iff]
          rintro ⟨h1, h2⟩
          rw [hcc, h0] at h1
          have hmem := mem_filter_ne.mpr ⟨h1, fun hd => h2 ⟨hcc, hd⟩⟩
          rw [hnil] at hmem
          simp at hmem
        · have hne : cc ≠ cc' := fun h => hcc h.symm
          have hek : dxsOf (dictErase m cc) cc' = dxsOf m cc' := by
            simp [dxsOf, dictLookup_erase, hne]
          rw [hek]
          simp [hcc]
      · rw [if_neg hnil]
        by_cases hcc : cc' = cc
        · have hik : dxsOf (dictInsert m cc (dxs.filter (fun e => decide (e ≠ dx)))) cc'
              = dxs.filter (fun e => decide (e ≠ dx)) := by
            rw [hcc]
            simp [dxsOf, dictLookup_insert]
          rw [hik, mem_filter_ne]
          constructor
          · rintro ⟨h1, h2⟩
            refine ⟨?_, fun hpair => h2 hpair.2⟩
            rw [hcc, h0]
            exact h1
          · rintro ⟨h1, h2⟩
            rw [hcc, h0] at h1
            exact ⟨h1, fun hd => h2 ⟨hcc, hd⟩⟩
        · have hne : cc ≠ cc' := fun h => hcc h.symm
          have hik : dxsOf (dictInsert m cc (dxs.filter (fun e => decide (e ≠ dx)))) cc'
              = dxsOf m cc' := by
            simp [dxsOf, dictLookup_insert, hne]
          rw [hik]
          simp [hcc]
    · rw [if_neg hdx]
      by_cases hcc : cc' = cc
      · constructor
        · intro h1
          refine ⟨h1, fun hpair => ?_⟩
          rw [hcc, h0] at h1
          exact hdx (hpair.2 ▸ h1)
        · exact fun h1 => h1.1
      · simp [hcc]

/-- Overriding `dx` from `cc` to `nc` adds `dx` under `nc` and otherwise
behaves like the removal from `cc`. -/
theorem mem_dxsOf_applyOverride (m : Dict String (List String)) (dx cc nc d cc' : String) :
    d ∈ dxsOf (applyOverride m dx cc nc) cc' ↔
      (cc' = nc ∧ d = dx) ∨ (d ∈ dxsOf m cc' ∧ ¬(cc' = cc ∧ d = dx)) := by
  rw [← mem_dxsOf_applyRemoval m dx cc d cc']
  cases hlk : dictLookup (applyRemoval m dx cc) nc with
  | none =>
    rw [applyOverride_none hlk]
    by_cases hcc : cc' = nc
    · rw [hcc]
      have hap : dictLookup (applyRemoval m dx cc ++ [(nc, [dx])]) nc = some [dx] := by
        rw [dictLookup_append_none _ hlk, dictLookup_cons, if_pos rfl]
      simp [dxsOf, hap, hlk]
    · have heq : dictLookup (applyRemoval m dx cc ++ [(nc, [dx])]) cc' =
          dictLookup (applyRemoval m dx cc) cc' := by
        cases hlk' : dictLookup (applyRemoval m dx cc) cc' with
        | none =>
          rw [dictLookup_append_none _ hlk', dictLookup_cons,
            if_neg (fun h => hcc h.symm)]
          rfl
        | some w => rw [dictLookup_append_some _ hlk']
      simp [dxsOf, heq, hcc]
  | some dxs =>
    rw [applyOverride_some hlk]
    by_cases hcc : cc' = nc
    · have h1 : dxsOf (dictInsert (applyRemoval m dx cc) nc (setAdd dxs dx)) cc'
          = setAdd dxs dx := by
        rw [hcc]
        simp [dxsOf, dictLookup_insert]
      have h0 : dxsOf (applyRemoval m dx cc) cc' = dxs := by
        rw [hcc]
        simp [dxsOf, hlk]
      rw [h1, h0, mem_setAdd]
      simp only [hcc, eq_self_iff_true, true_and]
      tauto
    · have hne : nc ≠ cc' := fun h => hcc h.symm
      have hik : dxsOf (dictInsert (applyRemoval m dx cc) nc (setAdd dxs dx)) cc'
          = dxsOf (applyRemoval m dx cc) cc' := by
        simp [dxsOf, dictLookup_insert, hne]
      rw [hik]
      simp [hcc]

/-- Membership after the whole removal loop: `d` survives under `cc` iff it was
there and no recorded removal names the pair. -/
theorem mem_dxsOf_applyRemovals (removals : Dict String String)
    (m : Dict String (List String)) (d cc : String) :
    d ∈ dxsOf (applyRemovals removals m) cc ↔
      d ∈ dxsOf m cc ∧ ∀ p ∈ removals, ¬(cc = p.2 ∧ d = p.1) := by
  induction removals generalizing m with
  | nil => simp [applyRemovals]
  | cons q rest ih =>
    obtain ⟨dxq, ccq⟩ := q
    have hstep : applyRemovals ((dxq, ccq) :: rest) m
        = applyRemovals rest (applyRemoval m dxq ccq) := rfl
    rw [hstep, ih, mem_dxsOf_applyRemoval]
    simp only [List.mem_cons, forall_eq_or_imp]
    tauto

/-- The override loop does not touch a diagnosis that is not one of its keys. -/
theorem mem_dxsOf_applyOverrides_of_ne (overrides : Dict String (String × String))
    (m : Dict String (List String)) (d cc : String)
    (h : ∀ p ∈ overrides, p.1 ≠ d) :
    d ∈ dxsOf (applyOverrides overrides m) cc ↔ d ∈ dxsOf m cc := by
  induction overrides generalizing m with
  | nil => simp [applyOverrides]
  | cons q rest ih =>
    obtain ⟨dxq, ccs⟩ := q
    have hstep : applyOverrides ((dxq, ccs) :: rest) m
        = applyOverrides rest (applyOverride m dxq ccs.1 ccs.2) := rfl
    have hne : dxq ≠ d := h (dxq, ccs) (List.mem_cons_self _ _)
    rw [hstep, ih _ (fun p hp => h p (List.mem_cons_of_mem _ hp)),
      mem_dxsOf_applyOverride]
    constructor
    · rintro (⟨h1, h2⟩ | ⟨h1, h2⟩)
      · exact absurd h2.symm hne
      · exact h1
    · intro h1
      right
      exact ⟨h1, fun hp => hne hp.2.symm⟩

/-- Membership after the override loop, for a diagnosis that is one of its
keys (keys distinct): it lands under `nc` and is gone from `oc`. -/
theorem mem_dxsOf_applyOverrides_of_key (overrides : Dict String (String × String))
    (m : Dict String (List String)) (d cc oc nc : String)
    (hn : NodupKeys overrides) (hmem : (d, (oc, nc)) ∈ overrides) :
    d ∈ dxsOf (applyOverrides overrides m) cc ↔
      cc = nc ∨ (d ∈ dxsOf m cc ∧ ¬cc = oc) := by
  induction overrides generalizing m with
  | nil => simp at hmem
  | cons q rest ih =>
    obtain ⟨dxq, ccs⟩ := q
    have hstep : applyOverrides ((dxq, ccs) :: rest) m
        = applyOverrides rest (applyOverride m dxq ccs.1 ccs.2) := rfl
    have hn' : dxq ∉ rest.map Prod.fst ∧ NodupKeys rest := by
      simpa [NodupKeys, List.nodup_cons] using hn
    rcases List.mem_cons.mp hmem with h1 | h1
    · have hd : d = dxq := by injection h1 with h2 h3
      have hccs : ccs = (oc, nc) := by injection h1 with h2 h3; exact h3.symm
      have hkeys : ∀ p ∈ rest, p.1 ≠ d := by
        intro p hp hpd
        exact hn'.1 (List.mem_map.mpr ⟨p, hp, hpd.trans hd⟩)
      rw [hstep, mem_dxsOf_applyOverrides_of_ne rest _ d cc hkeys,
        mem_dxsOf_applyOverride, hccs]
      have hd' : d = dxq ↔ True := by simp [hd]
      simp only [hd', and_true]
    · have hd : dxq ≠ d := by
        intro he
        exact hn'.1 (he ▸ List.mem_map.mpr ⟨(d, (oc, nc)), h1, rfl⟩)
      have hd' : ¬ d = dxq := fun he => hd he.symm
      rw [hstep, ih _ hn'.2 h1, mem_dxsOf_applyOverride]
      simp [hd']

/-! ### The rule loop: `editStep` / `computeEdits` lemmas -/

theorem editStep_none {em : Dict (String × String) EditRule} {age : Int}
    {sexN model : String} {acc : Dict String String × Dict String (String × String)}
    {p : String × String} (h : dictLookup em (p.1, model) = none) :
    editStep em age sexN model acc p = acc := by
  unfold editStep
  rw [h]

theorem truthyStr_eq_true {o : Option String} :
    truthyStr o = true ↔ ∃ s, o = some s ∧ s ≠ "" := by
  cases o <;> simp [truthyStr]

theorem editStep_some {em : Dict (String × String) EditRule} {age : Int}
    {sexN model : String} {acc : Dict String String × Dict String (String × String)}
    {p : String × String} {rule : EditRule}
    (h : dictLookup em (p.1, model) = some rule) :
    editStep em age sexN model acc p =
      if shouldApply rule age sexN then
        if rule.action = "invalid" then (dictInsert acc.1 p.1 p.2, acc.2)
        else if rule.action = "override" then
          if truthyStr rule.cc_override then
            (acc.1, dictInsert acc.2 p.1 (p.2, rule.cc_override.getD ""))
          else acc
        else acc
      else acc := by
  unfold editStep
  rw [h]

/-- A loop iteration for a different diagnosis changes neither tracked dict
at the key `dx`. -/
theorem editStep_lookup_ne (em : Dict (String × String) EditRule) (age : Int)
    (sexN model : String) (acc : Dict String String × Dict String (String × String))
    (p : String × String) (dx : String) (h : p.1 ≠ dx) :
    dictLookup (editStep em age sexN model acc p).1 dx = dictLookup acc.1 dx ∧
    dictLookup (editStep em age sexN model acc p).2 dx = dictLookup acc.2 dx := by
  cases hr : dictLookup em (p.1, model) with
  | none => rw [editStep_none hr]; exact ⟨rfl, rfl⟩
  | some rule =>
    rw [editStep_some hr]
    by_cases hs : shouldApply rule age sexN
    · rw [if_pos hs]
      by_cases hi : rule.action = "invalid"
      · rw [if_pos hi]
        exact ⟨by simp [dictLookup_insert, h], rfl⟩
      · rw [if_neg hi]
        by_cases ho : rule.action = "override"
        · rw [if_pos ho]
          by_cases ht : truthyStr rule.cc_override
          · rw [if_pos ht]
            exact ⟨rfl, by simp [dictLookup_insert, h]⟩
          · rw [if_neg ht]
            exact ⟨rfl, rfl⟩
        · rw [if_neg ho]
          exact ⟨rfl, rfl⟩
    · rw [if_neg hs]
      exact ⟨rfl, rfl⟩

/-- Provenance of an entry of `dx_to_remove` contributed by one iteration. -/
theorem editStep_fst_lookup_some {em : Dict (String × String) EditRule} {age : Int}
    {sexN model : String} {acc : Dict String String × Dict String (String × String)}
    {p : String × String} {dx oc : String}
    (h : dictLookup (editStep em age sexN model acc p).1 dx = some oc) :
    dictLookup acc.1 dx = some oc ∨
      (p = (dx, oc) ∧ ∃ rule, dictLookup em (dx, model) = some rule ∧
        shouldApply rule age sexN = true ∧ rule.action = "invalid") := by
  by_cases hp : p.1 = dx
  · cases hr : dictLookup em (p.1, model) with
    | none => rw [editStep_none hr] at h; exact Or.inl h
    | some rule =>
      rw [editStep_some hr] at h
      by_cases hs : shouldApply rule age sexN
      · rw [if_pos hs] at h
        by_cases hi : rule.action = "invalid"
        · rw [if_pos hi] at h
          have h2 : dictLookup (dictInsert acc.1 p.1 p.2) dx = some oc := h
          rw [dictLookup_insert, if_pos hp] at h2
          have hoc : p.2 = oc := by injection h2
          right
          refine ⟨by rw [← hp, ← hoc], rule, by rw [← hp]; exact hr, hs, hi⟩
        · rw [if_neg hi] at h
          by_cases ho : rule.action = "override"
          · rw [if_pos ho] at h
            by_cases ht : truthyStr rule.cc_override
            · rw [if_pos ht] at h
              exact Or.inl h
            · rw [if_neg ht] at h
              exact Or.inl h
          · rw [if_neg ho] at h
            exact Or.inl h
      · rw [if_neg hs] at h
        exact Or.inl h
  · exact Or.inl ((editStep_lookup_ne em age sexN model acc p dx hp).1 ▸ h)

/-- Provenance of an entry of `dx_to_override` contributed by one iteration. -/
theorem editStep_snd_lookup_some {em : Dict (String × String) EditRule} {age : Int}
    {sexN model : String} {acc : Dict String String × Dict String (String × String)}
    {p : String × String} {dx oc nc : String}
    (h : dictLookup (editStep em age sexN model acc p).2 dx = some (oc, nc)) :
    dictLookup acc.2 dx = some (oc, nc) ∨
      (p = (dx, oc) ∧ ∃ rule, dictLookup em (dx, model) = some rule ∧
        shouldApply rule age sexN = true ∧ rule.action = "override" ∧
        rule.cc_override = some nc ∧ nc ≠ "") := by
  by_cases hp : p.1 = dx
  · cases hr : dictLookup em (p.1, model) with
    | none => rw [editStep_none hr] at h; exact Or.inl h
    | some rule =>
      rw [editStep_some hr] at h
      by_cases hs : shouldApply rule age sexN
      · rw [if_pos hs] at h
        by_cases hi : rule.action = "invalid"
        · rw [if_pos hi] at h
          exact Or.inl h
        · rw [if_neg hi] at h
          by_cases ho : rule.action = "override"
          · rw [if_pos ho] at h
            by_cases ht : truthyStr rule.cc_override
            · rw [if_pos ht] at h
              have h2 : dictLookup (dictInsert acc.2 p.1 (p.2, rule.cc_override.getD "")) dx
                  = some (oc, nc) := h
              rw [dictLookup_insert, if_pos hp] at h2
              obtain ⟨s, hov, hsne⟩ := truthyStr_eq_true.mp ht
              rw [hov] at h2
              have hpr : (p.2, (some s).getD "") = (oc, nc) := by injection h2
              have hoc : p.2 = oc := congrArg Prod.fst hpr
              have hnc : s = nc := congrArg Prod.snd hpr
              right
              refine ⟨by rw [← hp, ← hoc], rule, by rw [← hp]; exact hr, hs, ho, ?_, ?_⟩
              · rw [hov, hnc]
              · rw [← hnc]; exact hsne
            · rw [if_neg ht] at h
              exact Or.inl h
          · rw [if_neg ho] at h
            exact Or.inl h
      · rw [if_neg hs] at h
        exact Or.inl h
  · exact Or.inl ((editStep_lookup_ne em age sexN model acc p dx hp).2 ▸ h)

/-- A matching `invalid` rule records the diagnosis in `dx_to_remove` and
leaves `dx_to_override` alone. -/
theorem editStep_self_invalid {em : Dict (String × String) EditRule} {age : Int}
    {sexN model : String} {p : String × String} {rule : EditRule}
    (acc : Dict String String × Dict String (String × String))
    (hr : dictLookup em (p.1, model) = some rule)
    (hs : shouldApply rule age sexN = true) (hi : rule.action = "invalid") :
    dictLookup (editStep em age sexN model acc p).1 p.1 = some p.2 ∧
    dictLookup (editStep em age sexN model acc p).2 p.1 = dictLookup acc.2 p.1 := by
  rw [editStep_some hr, if_pos hs, if_pos hi]
  exact ⟨by rw [dictLookup_insert, if_pos rfl], rfl⟩

/-- A matching `override` rule with a non-degenerate target records the
diagnosis in `dx_to_override` and leaves `dx_to_remove` alone. -/
theorem editStep_self_override {em : Dict (String × String) EditRule} {age : Int}
    {sexN model : String} {p : String × String} {rule : EditRule} {nc : String}
    (acc : Dict String String × Dict String (String × String))
    (hr : dictLookup em (p.1, model) = some rule)
    (hs : shouldApply rule age sexN = true) (ho : rule.action = "override")
    (hov : rule.cc_override = some nc) (hne : nc ≠ "") :
    dictLookup (editStep em age sexN model acc p).1 p.1 = dictLookup acc.1 p.1 ∧
    dictLookup (editStep em age sexN model acc p).2 p.1 = some (p.2, nc) := by
  have hi : ¬ rule.action = "invalid" := by
    rw [ho]
    intro hcon
    exact absurd hcon (by decide)
  have ht : truthyStr rule.cc_override = true := truthyStr_eq_true.mpr ⟨nc, hov, hne⟩
  rw [editStep_some hr, if_pos hs, if_neg hi, if_pos ho, if_pos ht]
  refine ⟨rfl, ?_⟩
  have : dictLookup (dictInsert acc.2 p.1 (p.2, rule.cc_override.getD "")) p.1
      = some (p.2, rule.cc_override.getD "") := by
    rw [dictLookup_insert, if_pos rfl]
  rw [this, hov]
  rfl

/-- An `override` rule whose target is `None` or the empty string changes
nothing, whether or not its condition matches. -/
theorem editStep_degenerate {em : Dict (String × String) EditRule} {age : Int}
    {sexN model : String} {p : String × String} {rule : EditRule}
    (acc : Dict String String × Dict String (String × String))
    (hr : dictLookup em (p.1, model) = some rule) (ho : rule.action = "override")
    (hd : rule.cc_override = none ∨ rule.cc_override = some "") :
    editStep em age sexN model acc p = acc := by
  have hi : ¬ rule.action = "invalid" := by
    rw [ho]
    intro hcon
    exact absurd hcon (by decide)
  have ht : ¬ truthyStr rule.cc_override = true := by
    rcases hd with h | h <;> simp [truthyStr, h]
  rw [editStep_some hr]
  by_cases hs : shouldApply rule age sexN
  · rw [if_pos hs, if_neg hi, if_pos ho, if_neg ht]
  · rw [if_neg hs]

/-- The rule loop leaves both tracked dicts unchanged at keys it never visits. -/
theorem editsFold_lookup_ne (em : Dict (String × String) EditRule) (age : Int)
    (sexN model : String) (all : Dict String String)
    (acc : Dict String String × Dict String (String × String)) (dx : String)
    (h : ∀ p ∈ all, p.1 ≠ dx) :
    dictLookup (all.foldl (editStep em age sexN model) acc).1 dx = dictLookup acc.1 dx ∧
    dictLookup (all.foldl (editStep em age sexN model) acc).2 dx = dictLookup acc.2 dx := by
  induction all generalizing acc with
  | nil => exact ⟨rfl, rfl⟩
  | cons p rest ih =>
    have hstep := editStep_lookup_ne em age sexN model acc p dx (h p (List.mem_cons_self _ _))
    have ihr := ih (editStep em age sexN model acc p)
      (fun q hq => h q (List.mem_cons_of_mem _ hq))
    rw [List.foldl_cons]
    exact ⟨ihr.1.trans hstep.1, ihr.2.trans hstep.2⟩

/-- Provenance of `dx_to_remove` entries over the whole rule loop. -/
theorem editsFold_fst_some {em : Dict (String × String) EditRule} {age : Int}
    {sexN model : String} {all : Dict String String}
    {acc : Dict String String × Dict String (String × String)} {dx oc : String}
    (h : dictLookup (all.foldl (editStep em age sexN model) acc).1 dx = some oc) :
    dictLookup acc.1 dx = some oc ∨
      ((dx, oc) ∈ all ∧ ∃ rule, dictLookup em (dx, model) = some rule ∧
        shouldApply rule age sexN = true ∧ rule.action = "invalid") := by
  induction all generalizing acc with
  | nil => exact Or.inl h
  | cons p rest ih =>
    rw [List.foldl_cons] at h
    rcases ih h with h1 | h1
    · rcases editStep_fst_lookup_some h1 with h2 | h2
      · exact Or.inl h2
      · right
        exact ⟨by rw [← h2.1]; exact List.mem_cons_self _ _, h2.2⟩
    · right
      exact ⟨List.mem_cons_of_mem _ h1.1, h1.2⟩

/-- Provenance of `dx_to_override` entries over the whole rule loop. -/
theorem editsFold_snd_some {em : Dict (String × String) EditRule} {age : Int}
    {sexN model : String} {all : Dict String String}
    {acc : Dict String String × Dict String (String × String)} {dx oc nc : String}
    (h : dictLookup (all.foldl (editStep em age sexN model) acc).2 dx = some (oc, nc)) :
    dictLookup acc.2 dx = some (oc, nc) ∨
      ((dx, oc) ∈ all ∧ ∃ rule, dictLookup em (dx, model) = some rule ∧
        shouldApply rule age sexN = true ∧ rule.action = "override" ∧
        rule.cc_override = some nc ∧ nc ≠ "") := by
  induction all generalizing acc with
  | nil => exact Or.inl h
  | cons p rest ih =>
    rw [List.foldl_cons] at h
    rcases ih h with h1 | h1
    · rcases editStep_snd_lookup_some h1 with h2 | h2
      · exact Or.inl h2
      · right
        exact ⟨by rw [← h2.1]; exact List.mem_cons_self _ _, h2.2⟩
    · right
      exact ⟨List.mem_cons_of_mem _ h1.1, h1.2⟩

/-- Over a duplicate-free `all_dx_to_cc`, a diagnosis with a matching
`invalid` rule ends up in `dx_to_remove` with its recorded CC. -/
theorem editsFold_fst_lookup {em : Dict (String × String) EditRule} {age : Int}
    {sexN model : String} {all : Dict String String}
    {dx oc : String} {rule : EditRule}
    (acc : Dict String String × Dict String (String × String))
    (hn : NodupKeys all) (hmem : (dx, oc) ∈ all)
    (hr : dictLookup em (dx, model) = some rule)
    (hs : shouldApply rule age sexN = true) (hi : rule.action = "invalid") :
    dictLookup (all.foldl (editStep em age sexN model) acc).1 dx = some oc := by
  revert hn hmem
  induction all generalizing acc with
  | nil =>
    intro hn hmem
    simp at hmem
  | cons p rest ih =>
    intro hn hmem
    have hn' : p.1 ∉ rest.map Prod.fst ∧ NodupKeys rest := by
      simpa [NodupKeys, List.nodup_cons] using hn
    rw [List.foldl_cons]
    rcases List.mem_cons.mp hmem with h1 | h1
    · have hp1 : p.1 = dx := by rw [← h1]
      have hp2 : p.2 = oc := by rw [← h1]
      have hkeys : ∀ q ∈ rest, q.1 ≠ dx := by
        intro q hq hqd
        exact hn'.1 (hp1 ▸ List.mem_map.mpr ⟨q, hq, hqd⟩)
      have hr' : dictLookup em (p.1, model) = some rule := by rw [hp1]; exact hr
      have hstep := (editStep_self_invalid acc hr' hs hi).1
      have hrest := (editsFold_lookup_ne em age sexN model rest
        (editStep em age sexN model acc p) dx hkeys).1
      rw [hrest, ← hp1, hstep, hp2]
    · have hne : p.1 ≠ dx := by
        intro he
        exact hn'.1 (he.symm ▸ List.mem_map.mpr ⟨(dx, oc), h1, rfl⟩)
      exact ih _ hn'.2 h1

/-- Over a duplicate-free `all_dx_to_cc`, a diagnosis with a matching
non-degenerate `override` rule ends up in `dx_to_override`. -/
theorem editsFold_snd_lookup {em : Dict (String × String) EditRule} {age : Int}
    {sexN model : String} {all : Dict String String}
    {dx oc nc : String} {rule : EditRule}
    (acc : Dict String String × Dict String (String × String))
    (hn : NodupKeys all) (hmem : (dx, oc) ∈ all)
    (hr : dictLookup em (dx, model) = some rule)
    (hs : shouldApply rule age sexN = true) (ho : rule.action = "override")
    (hov : rule.cc_override = some nc) (hne : nc ≠ "") :
    dictLookup (all.foldl (editStep em age sexN model) acc).2 dx = some (oc, nc) := by
  revert hn hmem
  induction all generalizing acc with
  | nil =>
    intro hn hmem
    simp at hmem
  | cons p rest ih =>
    intro hn hmem
    have hn' : p.1 ∉ rest.map Prod.fst ∧ NodupKeys rest := by
      simpa [NodupKeys, List.nodup_cons] using hn
    rw [List.foldl_cons]
    rcases List.mem_cons.mp hmem with h1 | h1
    · have hp1 : p.1 = dx := by rw [← h1]
      have hp2 : p.2 = oc := by rw [← h1]
      have hkeys : ∀ q ∈ rest, q.1 ≠ dx := by
        intro q hq hqd
        exact hn'.1 (hp1 ▸ List.mem_map.mpr ⟨q, hq, hqd⟩)
      have hr' : dictLookup em (p.1, model) = some rule := by rw [hp1]; exact hr
      have hstep := (editStep_self_override acc hr' hs ho hov hne).2
      have hrest := (editsFold_lookup_ne em age sexN model rest
        (editStep em age sexN model acc p) dx hkeys).2
      rw [hrest, ← hp1, hstep, hp2]
    · have hne' : p.1 ≠ dx := by
        intro he
        exact hn'.1 (he.symm ▸ List.mem_map.mpr ⟨(dx, oc), h1, rfl⟩)
      exact ih _ hn'.2 h1

/-- A diagnosis whose rule is a degenerate `override` is recorded nowhere. -/
theorem editsFold_degenerate {em : Dict (String × String) EditRule} {age : Int}
    {sexN model : String} {all : Dict String String} {dx : String} {rule : EditRule}
    (acc : Dict String String × Dict String (String × String))
    (hr : dictLookup em (dx, model) = some rule) (ho : rule.action = "override")
    (hd : rule.cc_override = none ∨ rule.cc_override = some "") :
    dictLookup (all.foldl (editStep em age sexN model) acc).1 dx = dictLookup acc.1 dx ∧
    dictLookup (all.foldl (editStep em age sexN model) acc).2 dx = dictLookup acc.2 dx := by
  induction all generalizing acc with
  | nil => exact ⟨rfl, rfl⟩
  | cons p rest ih =>
    rw [List.foldl_cons]
    by_cases hp : p.1 = dx
    · have hr' : dictLookup em (p.1, model) = some rule := by rw [hp]; exact hr
      rw [editStep_degenerate acc hr' ho hd]
      exact ih acc
    · have hstep := editStep_lookup_ne em age sexN model acc p dx hp
      have ihr := ih (editStep em age sexN model acc p)
      exact ⟨ihr.1.trans hstep.1, ihr.2.trans hstep.2⟩

/-- Both tracked dicts of the rule loop have duplicate-free keys. -/
theorem editStep_nodup {em : Dict (String × String) EditRule} {age : Int}
    {sexN model : String} (p : String × String)
    (acc : Dict String String × Dict String (String × String))
    (h1 : NodupKeys acc.1) (h2 : NodupKeys acc.2) :
    NodupKeys (editStep em age sexN model acc p).1 ∧
    NodupKeys (editStep em age sexN model acc p).2 := by
  cases hr : dictLookup em (p.1, model) with
  | none => rw [editStep_none hr]; exact ⟨h1, h2⟩
  | some rule =>
    rw [editStep_some hr]
    by_cases hs : shouldApply rule age sexN
    · rw [if_pos hs]
      by_cases hi : rule.action = "invalid"
      · rw [if_pos hi]
        exact ⟨nodupKeys_dictInsert h1 _ _, h2⟩
      · rw [if_neg hi]
        by_cases ho : rule.action = "override"
        · rw [if_pos ho]
          by_cases ht : truthyStr rule.cc_override
          · rw [if_pos ht]
            exact ⟨h1, nodupKeys_dictInsert h2 _ _⟩
          · rw [if_neg ht]
            exact ⟨h1, h2⟩
        · rw [if_neg ho]
          exact ⟨h1, h2⟩
    · rw [if_neg hs]
      exact ⟨h1, h2⟩

theorem editsFold_nodup {em : Dict (String × String) EditRule} {age : Int}
    {sexN model : String} {all : Dict String String}
    (acc : Dict String String × Dict String (String × String))
    (h1 : NodupKeys acc.1) (h2 : NodupKeys acc.2) :
    NodupKeys (all.foldl (editStep em age sexN model) acc).1 ∧
    NodupKeys (all.foldl (editStep em age sexN model) acc).2 := by
  induction all generalizing acc with
  | nil => exact ⟨h1, h2⟩
  | cons p rest ih =>
    rw [List.foldl_cons]
    have hstep := @editStep_nodup em age sexN model p acc h1 h2
    exact ih _ hstep.1 hstep.2

/-! ### `all_dx_to_cc` (`buildDxToCC`) lemmas -/

theorem innerFold_lookup_some {dxs : List String} {cc : String} {acc : Dict String String}
    {dx c : String}
    (h : dictLookup (dxs.foldl (fun a d => dictInsert a d cc) acc) dx = some c) :
    dictLookup acc dx = some c ∨ (dx ∈ dxs ∧ c = cc) := by
  induction dxs generalizing acc with
  | nil => exact Or.inl h
  | cons d rest ih =>
    rw [List.foldl_cons] at h
    rcases ih h with h1 | h1
    · rw [dictLookup_insert] at h1
      by_cases hd : d = dx
      · rw [if_pos hd] at h1
        have hc : cc = c := by injection h1
        right
        refine ⟨?_, hc.symm⟩
        rw [← hd]
        exact List.mem_cons_self _ _
      · rw [if_neg hd] at h1
        exact Or.inl h1
    · right
      exact ⟨List.mem_cons_of_mem _ h1.1, h1.2⟩

theorem innerFold_isSome {dxs : List String} {cc : String} {acc : Dict String String}
    {dx : String} (h : dx ∈ dxs ∨ (dictLookup acc dx).isSome = true) :
    (dictLookup (dxs.foldl (fun a d => dictInsert a d cc) acc) dx).isSome = true := by
  induction dxs generalizing acc with
  | nil =>
    rcases h with h | h
    · simp at h
    · exact h
  | cons d rest ih =>
    rw [List.foldl_cons]
    apply ih
    rcases h with h | h
    · rcases List.mem_cons.mp h with h1 | h1
      · right
        rw [dictLookup_insert, if_pos h1.symm]
        rfl
      · exact Or.inl h1
    · right
      rw [dictLookup_insert]
      by_cases hd : d = dx
      · rw [if_pos hd]
        rfl
      · rw [if_neg hd]
        exact h

theorem innerFold_nodup {dxs : List String} {cc : String} {acc : Dict String String}
    (h : NodupKeys acc) :
    NodupKeys (dxs.foldl (fun a d => dictInsert a d cc) acc) := by
  induction dxs generalizing acc with
  | nil => exact h
  | cons d rest ih =>
    rw [List.foldl_cons]
    exact ih (nodupKeys_dictInsert h _ _)

theorem buildFold_lookup_some {m : Dict String (List String)} {acc : Dict String String}
    {dx c : String}
    (h : dictLookup
        (m.foldl (fun a p => p.2.foldl (fun a2 d => dictInsert a2 d p.1) a) acc) dx
      = some c) :
    dictLookup acc dx = some c ∨ ∃ dxs, (c, dxs) ∈ m ∧ dx ∈ dxs := by
  induction m generalizing acc with
  | nil => exact Or.inl h
  | cons p rest ih =>
    rw [List.foldl_cons] at h
    rcases ih h with h1 | h1
    · rcases innerFold_lookup_some h1 with h2 | h2
      · exact Or.inl h2
      · right
        refine ⟨p.2, ?_, h2.1⟩
        rw [h2.2]
        exact List.mem_cons_self _ _
    · right
      obtain ⟨dxs, hm, hd⟩ := h1
      exact ⟨dxs, List.mem_cons_of_mem _ hm, hd⟩

theorem buildFold_isSome {m : Dict String (List String)} {acc : Dict String String}
    {dx : String}
    (h : (∃ cc dxs, (cc, dxs) ∈ m ∧ dx ∈ dxs) ∨ (dictLookup acc dx).isSome = true) :
    (dictLookup
        (m.foldl (fun a p => p.2.foldl (fun a2 d => dictInsert a2 d p.1) a) acc) dx).isSome
      = true := by
  induction m generalizing acc with
  | nil =>
    rcases h with ⟨cc, dxs, hm, _⟩ | h
    · simp at hm
    · exact h
  | cons p rest ih =>
    rw [List.foldl_cons]
    apply ih
    rcases h with ⟨cc, dxs, hm, hd⟩ | h
    · rcases List.mem_cons.mp hm with h1 | h1
      · right
        apply innerFold_isSome
        left
        have hds : dxs = p.2 := congrArg Prod.snd h1
        exact hds ▸ hd
      · left
        exact ⟨cc, dxs, h1, hd⟩
    · right
      exact innerFold_isSome (Or.inr h)

theorem buildFold_nodup {m : Dict String (List String)} {acc : Dict String String}
    (h : NodupKeys acc) :
    NodupKeys (m.foldl (fun a p => p.2.foldl (fun a2 d => dictInsert a2 d p.1) a) acc) := by
  induction m generalizing acc with
  | nil => exact h
  | cons p rest ih =>
    rw [List.foldl_cons]
    exact ih (innerFold_nodup h)

theorem buildDxToCC_nodup (m : Dict String (List String)) : NodupKeys (buildDxToCC m) := by
  unfold buildDxToCC
  exact buildFold_nodup (by simp [NodupKeys])

/-- Over an actual dict, the CC recorded for `dx` in `all_dx_to_cc` really
holds `dx`. -/
theorem buildDxToCC_sound {m : Dict String (List String)} {dx cc : String}
    (hn : NodupKeys m) (h : dictLookup (buildDxToCC m) dx = some cc) :
    dx ∈ dxsOf m cc := by
  unfold buildDxToCC at h
  rcases buildFold_lookup_some h with h1 | h1
  · simp at h1
  · obtain ⟨dxs, hm, hd⟩ := h1
    have hlk := mem_dictLookup hn hm
    simp [dxsOf, hlk, hd]

/-- Every diagnosis present somewhere in the mapping gets an `all_dx_to_cc`
entry. -/
theorem buildDxToCC_complete {m : Dict String (List String)} {dx cc : String}
    (h : dx ∈ dxsOf m cc) :
    ∃ oc, dictLookup (buildDxToCC m) dx = some oc := by
  unfold dxsOf at h
  cases hlk : dictLookup m cc with
  | none =>
    rw [hlk] at h
    simp at h
  | some dxs =>
    rw [hlk] at h
    have hm : (cc, dxs) ∈ m := dictLookup_mem hlk
    unfold buildDxToCC
    apply Option.isSome_iff_exists.mp
    exact buildFold_isSome (Or.inl ⟨cc, dxs, hm, h⟩)

/-! ### Assembling `apply_edits` -/

theorem apply_edits_eq (m : Dict String (List String)) (age : Int) (sex : String)
    (model : String) (em : Dict (String × String) EditRule) :
    apply_edits m age sex model em =
      applyOverrides
        (computeEdits (buildDxToCC m) em age (normalizeSex sex) model).2
        (applyRemovals
          (computeEdits (buildDxToCC m) em age (normalizeSex sex) model).1 m) :=
  rfl

theorem computeEdits_eq (all : Dict String String)
    (em : Dict (String × String) EditRule) (age : Int) (sexN model : String) :
    computeEdits all em age sexN model = all.foldl (editStep em age sexN model) ([], []) :=
  rfl

/-- Every `dx_to_remove` entry comes from `all_dx_to_cc` plus a matching
`invalid` rule. -/
theorem computeEdits_fst_facts {all : Dict String String}
    {em : Dict (String × String) EditRule} {age : Int} {sexN model : String}
    {dx oc : String}
    (h : dictLookup (computeEdits all em age sexN model).1 dx = some oc) :
    (dx, oc) ∈ all ∧ ∃ rule, dictLookup em (dx, model) = some rule ∧
      shouldApply rule age sexN = true ∧ rule.action = "invalid" := by
  rw [computeEdits_eq] at h
  rcases editsFold_fst_some h with h1 | h1
  · exact absurd h1 (by simp)
  · exact h1

/-- Every `dx_to_override` entry comes from `all_dx_to_cc` plus a matching
non-degenerate `override` rule. -/
theorem computeEdits_snd_facts {all : Dict String String}
    {em : Dict (String × String) EditRule} {age : Int} {sexN model : String}
    {dx oc nc : String}
    (h : dictLookup (computeEdits all em age sexN model).2 dx = some (oc, nc)) :
    (dx, oc) ∈ all ∧ ∃ rule, dictLookup em (dx, model) = some rule ∧
      shouldApply rule age sexN = true ∧ rule.action = "override" ∧
      rule.cc_override = some nc ∧ nc ≠ "" := by
  rw [computeEdits_eq] at h
  rcases editsFold_snd_some h with h1 | h1
  · exact absurd h1 (by simp)
  · exact h1

theorem computeEdits_nodup (all : Dict String String)
    (em : Dict (String × String) EditRule) (age : Int) (sexN model : String) :
    NodupKeys (computeEdits all em age sexN model).1 ∧
    NodupKeys (computeEdits all em age sexN model).2 := by
  rw [computeEdits_eq]
  exact editsFold_nodup ([], []) (by simp [NodupKeys]) (by simp [NodupKeys])

/-- A diagnosis cannot be recorded both for removal and for override. -/
theorem computeEdits_not_both {all : Dict String String}
    {em : Dict (String × String) EditRule} {age : Int} {sexN model : String}
    {dx oc oc2 nc : String}
    (h1 : dictLookup (computeEdits all em age sexN model).1 dx = some oc)
    (h2 : dictLookup (computeEdits all em age sexN model).2 dx = some (oc2, nc)) :
    False := by
  obtain ⟨-, rule1, hr1, -, hi1⟩ := computeEdits_fst_facts h1
  obtain ⟨-, rule2, hr2, -, ho2, -, -⟩ := computeEdits_snd_facts h2
  have heq : rule1 = rule2 := by
    have := hr1.symm.trans hr2
    injection this
  rw [heq, ho2] at hi1
  exact absurd hi1 (by decide)

/-! ### `NoEmptyCC` preservation -/

theorem noEmptyCC_applyRemoval {m : Dict String (List String)} (dx cc : String)
    (h : NoEmptyCC m) : NoEmptyCC (applyRemoval m dx cc) := by
  cases hlk : dictLookup m cc with
  | none =>
    rw [applyRemoval_none hlk]
    exact h
  | some dxs =>
    rw [applyRemoval_some hlk]
    by_cases hdx : dx ∈ dxs
    · rw [if_pos hdx]
      by_cases hnil : dxs.filter (fun e => decide (e ≠ dx)) = []
      · rw [if_pos hnil]
        intro cc' dxs' hlk'
        rw [dictLookup_erase] at hlk'
        by_cases hcc : cc = cc'
        · rw [if_pos hcc] at hlk'
          exact absurd hlk' (by simp)
        · rw [if_neg hcc] at hlk'
          exact h cc' dxs' hlk'
      · rw [if_neg hnil]
        intro cc' dxs' hlk'
        rw [dictLookup_insert] at hlk'
        by_cases hcc : cc = cc'
        · rw [if_pos hcc] at hlk'
          have : dxs.filter (fun e => decide (e ≠ dx)) = dxs' := by injection hlk'
          rw [← this]
          exact hnil
        · rw [if_neg hcc] at hlk'
          exact h cc' dxs' hlk'
    · rw [if_neg hdx]
      exact h

theorem noEmptyCC_applyOverride {m : Dict String (List String)} (dx cc nc : String)
    (h : NoEmptyCC m) : NoEmptyCC (applyOverride m dx cc nc) := by
  have h1 : NoEmptyCC (applyRemoval m dx cc) := noEmptyCC_applyRemoval dx cc h
  cases hlk : dictLookup (applyRemoval m dx cc) nc with
  | none =>
    rw [applyOverride_none hlk]
    intro cc' dxs' hlk'
    cases hlk2 : dictLookup (applyRemoval m dx cc) cc' with
    | none =>
      rw [dictLookup_append_none _ hlk2, dictLookup_cons] at hlk'
      by_cases hcc : nc = cc'
      · rw [if_pos hcc] at hlk'
        have : [dx] = dxs' := by injection hlk'
        rw [← this]
        simp
      · rw [if_neg hcc] at hlk'
        exact absurd hlk' (by simp)
    | some w =>
      rw [dictLookup_append_some _ hlk2] at hlk'
      have : w = dxs' := by injection hlk'
      exact this ▸ h1 cc' w hlk2
  | some dxs =>
    rw [applyOverride_some hlk]
    intro cc' dxs' hlk'
    rw [dictLookup_insert] at hlk'
    by_cases hcc : nc = cc'
    · rw [if_pos hcc] at hlk'
      have : setAdd dxs dx = dxs' := by injection hlk'
      rw [← this]
      exact setAdd_ne_nil _ _
    · rw [if_neg hcc] at hlk'
      exact h1 cc' dxs' hlk'

theorem noEmptyCC_applyRemovals (removals : Dict String String)
    {m : Dict String (List String)} (h : NoEmptyCC m) :
    NoEmptyCC (applyRemovals removals m) := by
  induction removals generalizing m with
  | nil => exact h
  | cons p rest ih => exact ih (noEmptyCC_applyRemoval p.1 p.2 h)

theorem noEmptyCC_applyOverrides (overrides : Dict String (String × String))
    {m : Dict String (List String)} (h : NoEmptyCC m) :
    NoEmptyCC (applyOverrides overrides m) := by
  induction overrides generalizing m with
  | nil => exact h
  | cons p rest ih => exact ih (noEmptyCC_applyOverride p.1 p.2.1 p.2.2 h)

/-! ### Helper facts about one-entry mappings (used to instantiate theorems) -/

theorem atMostOneCC_singleton (c d : String) : AtMostOneCC [(c, [d])] := by
  have hx : ∀ dx cc', dx ∈ dxsOf [(c, [d])] cc' → cc' = c := by
    intro dx cc' hm
    unfold dxsOf at hm
    rw [dictLookup_cons] at hm
    by_cases hc : c = cc'
    · exact hc.symm
    · rw [if_neg hc] at hm
      simp at hm
  intro dx cc1 cc2 h1 h2
  rw [hx dx cc1 h1, hx dx cc2 h2]

theorem noEmptyCC_singleton (c d : String) : NoEmptyCC [(c, [d])] := by
  intro cc dxs hlk
  rw [dictLookup_cons] at hlk
  by_cases hc : c = cc
  · rw [if_pos hc] at hlk
    have : [d] = dxs := by injection hlk
    rw [← this]
    simp
  · rw [if_neg hc] at hlk
    exact absurd hlk (by simp)

/-- Final membership of a diagnosis recorded (only) in `dx_to_override`:
it is under `nc`, plus wherever it was except `oc`. -/
theorem apply_edits_override_char (m : Dict String (List String)) (age : Int)
    (sex : String) (model : String) (em : Dict (String × String) EditRule)
    (dx oc nc : String)
    (hfstn : dictLookup
      (computeEdits (buildDxToCC m) em age (normalizeSex sex) model).1 dx = none)
    (hsnd : dictLookup
      (computeEdits (buildDxToCC m) em age (normalizeSex sex) model).2 dx
        = some (oc, nc)) :
    ∀ cc, dx ∈ dxsOf (apply_edits m age sex model em) cc ↔
      cc = nc ∨ (dx ∈ dxsOf m cc ∧ ¬cc = oc) := by
  intro cc
  rw [apply_edits_eq,
    mem_dxsOf_applyOverrides_of_key _ _ dx cc oc nc
      (computeEdits_nodup (buildDxToCC m) em age (normalizeSex sex) model).2
      (dictLookup_mem hsnd),
    mem_dxsOf_applyRemovals]
  have hcond : ∀ p ∈ (computeEdits (buildDxToCC m) em age (normalizeSex sex) model).1,
      ¬(cc = p.2 ∧ dx = p.1) := by
    intro p hp hpair
    exact (dictLookup_eq_none_iff.mp hfstn) p hp hpair.2.symm
  constructor
  · rintro (hl | ⟨⟨hm1, h2⟩, hno⟩)
    · exact Or.inl hl
    · exact Or.inr ⟨hm1, hno⟩
  · rintro (hl | ⟨hm1, hno⟩)
    · exact Or.inl hl
    · exact Or.inr ⟨⟨hm1, hcond⟩, hno⟩

/-! ### Loader lemmas -/

theorem loadRow_none {mapping : Dict (String × String) (List String)} {line : String}
    (h : parseMappingLine line = none) : loadRow mapping line = mapping := by
  unfold loadRow
  rw [h]

theorem loadRow_some {mapping : Dict (String × String) (List String)} {line : String}
    {r : String × String × String} (h : parseMappingLine line = some r) :
    loadRow mapping line = insertMappingRow mapping r.1 r.2.1 r.2.2 := by
  unfold loadRow
  rw [h]

/-- Inserting one well-formed row adds exactly `cc` under `(dx, model)`. -/
theorem mem_insertMappingRow {mapping : Dict (String × String) (List String)}
    {dx cc model : String} {key : String × String} {c : String} :
    c ∈ (dictLookup (insertMappingRow mapping dx cc model) key).getD [] ↔
      (key = (dx, model) ∧ c = cc) ∨ c ∈ (dictLookup mapping key).getD [] := by
  unfold insertMappingRow
  cases hlk : dictLookup mapping (dx, model) with
  | none =>
    rw [dictLookup_insert]
    by_cases hk : (dx, model) = key
    · rw [if_pos hk]
      simp [hlk, hk.symm]
    · have hne : ¬ key = (dx, model) := fun h => hk h.symm
      rw [if_neg hk]
      simp [hne]
  | some s =>
    rw [dictLookup_insert]
    by_cases hk : (dx, model) = key
    · rw [if_pos hk]
      simp only [Option.getD_some, mem_setAdd, hk.symm, hlk, eq_self_iff_true, true_and]
      tauto
    · have hne : ¬ key = (dx, model) := fun h => hk h.symm
      rw [if_neg hk]
      simp [hne]

/-- Membership in the loaded table, over the whole loading loop. -/
theorem mem_loadRows (rows : List String) (acc : Dict (String × String) (List String))
    (dx model c : String) :
    c ∈ (dictLookup (loadRows rows acc) (dx, model)).getD [] ↔
      c ∈ (dictLookup acc (dx, model)).getD [] ∨
        ∃ line ∈ rows, parseMappingLine line = some (dx, c, model) := by
  induction rows generalizing acc with
  | nil => simp [loadRows]
  | cons line rest ih =>
    have hstep : loadRows (line :: rest) acc = loadRows rest (loadRow acc line) := by
      unfold loadRows
      rw [List.foldl_cons]
    rw [hstep, ih]
    cases hp : parseMappingLine line with
    | none =>
      rw [loadRow_none hp]
      constructor
      · rintro (h | ⟨l, hl, hpl⟩)
        · exact Or.inl h
        · exact Or.inr ⟨l, List.mem_cons_of_mem _ hl, hpl⟩
      · rintro (h | ⟨l, hl, hpl⟩)
        · exact Or.inl h
        · rcases List.mem_cons.mp hl with h1 | h1
          · rw [h1] at hpl
            rw [hp] at hpl
            exact absurd hpl (by simp)
          · exact Or.inr ⟨l, h1, hpl⟩
    | some r =>
      rw [loadRow_some hp, mem_insertMappingRow]
      constructor
      · rintro ((⟨hk, hc⟩ | h) | ⟨l, hl, hpl⟩)
        · right
          refine ⟨line, List.mem_cons_self _ _, ?_⟩
          rw [hp]
          have h1 : dx = r.1 := congrArg Prod.fst hk
          have h2 : model = r.2.2 := congrArg Prod.snd hk
          rw [hc, h1, h2]
        · exact Or.inl h
        · exact Or.inr ⟨l, List.mem_cons_of_mem _ hl, hpl⟩
      · rintro (h | ⟨l, hl, hpl⟩)
        · exact Or.inl (Or.inr h)
        · rcases List.mem_cons.mp hl with h1 | h1
          · left
            left
            rw [h1, hp] at hpl
            have hr : r = (dx, c, model) := by injection hpl
            rw [hr]
            exact ⟨rfl, rfl⟩
          · exact Or.inr ⟨l, h1, hpl⟩

/-! ### Claim theorems -/

/-- An age rule reduces to its `age_max`-then-`age_min` cascade. -/
theorem shouldApply_of_age (rule : EditRule) (age : Int) (sexN : String)
    (h : rule.edit_type = "age") :
    shouldApply rule age sexN =
      if ageMaxApplies rule age then true else ageMinApplies rule age := by
  unfold shouldApply
  rw [h, if_neg (by decide : ¬("age" : String) = "sex"), if_pos rfl]

/-- C3: an age edit rule consulted by `apply_edits` applies exactly when
`age_max` is set and `age ≤ age_max`, or else when `age_min` is set and
`age ≥ age_min`; the `age_max` test is tried first and the two bounds are
never conjoined. -/
theorem shouldApply_age_rule (rule : EditRule) (age : Int) (sexN : String)
    (h : rule.edit_type = "age") :
    shouldApply rule age sexN = true ↔
      (∃ mx, rule.age_max = some mx ∧ age ≤ mx) ∨
      (∃ mn, rule.age_min = some mn ∧ mn ≤ age) := by
  obtain ⟨et, sx, amin, amax, act, covr⟩ := rule
  have het : et = "age" := h
  subst het
  rw [shouldApply_of_age _ age sexN rfl]
  unfold ageMaxApplies ageMinApplies
  cases amax with
  | none =>
    cases amin with
    | none => simp
    | some mn => simp
  | some mx =>
    by_cases hmx : age ≤ mx
    · simp [hmx]
    · cases amin with
      | none => simp [hmx]
      | some mn => simp [hmx]

/-- C3 witness: a rule with both bounds set applies to an age above `age_max`
because the `age_min` branch still fires. -/
theorem shouldApply_age_rule_witness :
    (EditRule.mk "age" none (some 2) (some 49) "invalid" none).edit_type = "age" ∧
    shouldApply (EditRule.mk "age" none (some 2) (some 49) "invalid" none) 60 "1" = true :=
  ⟨rfl, (shouldApply_age_rule _ 60 "1" rfl).mpr (Or.inr ⟨2, rfl, by decide⟩)⟩

/-- C4: a sex edit rule consulted by `apply_edits` is applied iff the rule's
stored sex code equals the member's sex normalized by `'M' ↦ '1'`, `'F' ↦ '2'`. -/
theorem shouldApply_sex_rule (rule : EditRule) (age : Int) (sex : String)
    (h : rule.edit_type = "sex") :
    shouldApply rule age (normalizeSex sex) = true ↔
      rule.sex = some (normalizeSex sex) := by
  unfold shouldApply
  rw [if_pos h]
  simp

/-- C4 witness at a concrete rule and member sex `F`. -/
theorem shouldApply_sex_rule_witness :
    (EditRule.mk "sex" (some "2") none none "invalid" none).edit_type = "sex" ∧
    (shouldApply (EditRule.mk "sex" (some "2") none none "invalid" none) 50
        (normalizeSex "F") = true ↔
      (EditRule.mk "sex" (some "2") none none "invalid" none).sex
        = some (normalizeSex "F")) :=
  ⟨rfl, shouldApply_sex_rule _ 50 "F" rfl⟩

/-- C10: `apply_edits` treats member sex `'M'` exactly like `'1'` and `'F'`
exactly like `'2'`. -/
theorem apply_edits_sex_codes (m : Dict String (List String)) (age : Int)
    (model : String) (em : Dict (String × String) EditRule) :
    apply_edits m age "M" model em = apply_edits m age "1" model em ∧
    apply_edits m age "F" model em = apply_edits m age "2" model em :=
  ⟨rfl, rfl⟩

/-- C6: if no CC key of the input maps to an empty diagnosis set, the same is
true of the output of `apply_edits`. -/
theorem apply_edits_no_empty_cc (m : Dict String (List String)) (age : Int)
    (sex : String) (model : String) (em : Dict (String × String) EditRule)
    (h : NoEmptyCC m) : NoEmptyCC (apply_edits m age sex model em) := by
  rw [apply_edits_eq]
  exact noEmptyCC_applyOverrides _ (noEmptyCC_applyRemovals _ h)

/-- C6 witness at a concrete one-entry mapping. -/
theorem apply_edits_no_empty_cc_witness :
    NoEmptyCC (apply_edits [("1", ["D"])] 50 "F" "M" []) :=
  apply_edits_no_empty_cc _ 50 "F" "M" _ (noEmptyCC_singleton "1" "D")

/-- C9: a matching `override` rule whose `cc_override` is `None` or `""` has
no effect on its diagnosis: membership under every CC is unchanged. -/
theorem apply_edits_degenerate_override (m : Dict String (List String)) (age : Int)
    (sex : String) (model : String) (em : Dict (String × String) EditRule)
    (dx : String) (rule : EditRule)
    (hr : dictLookup em (dx, model) = some rule)
    (ho : rule.action = "override")
    (hd : rule.cc_override = none ∨ rule.cc_override = some "") :
    ∀ cc, dx ∈ dxsOf (apply_edits m age sex model em) cc ↔ dx ∈ dxsOf m cc := by
  intro cc
  have hboth := @editsFold_degenerate em age (normalizeSex sex) model (buildDxToCC m)
    dx rule ([], []) hr ho hd
  have hfst : dictLookup
      (computeEdits (buildDxToCC m) em age (normalizeSex sex) model).1 dx = none := hboth.1
  have hsnd : dictLookup
      (computeEdits (buildDxToCC m) em age (normalizeSex sex) model).2 dx = none := hboth.2
  rw [apply_edits_eq,
    mem_dxsOf_applyOverrides_of_ne _ _ _ _ (dictLookup_eq_none_iff.mp hsnd),
    mem_dxsOf_applyRemovals]
  constructor
  · exact fun hh => hh.1
  · intro hh
    refine ⟨hh, ?_⟩
    intro p hp hpair
    exact (dictLookup_eq_none_iff.mp hfst) p hp hpair.2.symm

/-- C9 witness: a concrete degenerate override (empty-string target) leaves
the diagnosis in place. -/
theorem apply_edits_degenerate_override_witness :
    "D" ∈ dxsOf (apply_edits [("1", ["D"])] 50 "1" "M"
        [(("D", "M"), EditRule.mk "sex" (some "1") none none "override" (some ""))]) "1" ↔
      "D" ∈ dxsOf [("1", ["D"])] "1" :=
  apply_edits_degenerate_override _ 50 "1" "M"
    [(("D", "M"), EditRule.mk "sex" (some "1") none none "override" (some ""))] "D"
    (EditRule.mk "sex" (some "1") none none "override" (some ""))
    rfl rfl (Or.inr rfl) "1"

/-- C1 counterexample: with the same diagnosis under two CCs, a matching
`invalid` rule removes it only from the CC recorded last in `all_dx_to_cc`,
so the diagnosis survives under the other CC. -/
theorem apply_edits_invalid_removes_cex :
    dictLookup [(("D", "M"), EditRule.mk "sex" (some "1") none none "invalid" none)]
        ("D", "M")
      = some (EditRule.mk "sex" (some "1") none none "invalid" none) ∧
    shouldApply (EditRule.mk "sex" (some "1") none none "invalid" none) 50
        (normalizeSex "1") = true ∧
    "D" ∈ dxsOf [("1", ["D"]), ("2", ["D"])] "1" ∧
    "D" ∈ dxsOf (apply_edits [("1", ["D"]), ("2", ["D"])] 50 "1" "M"
        [(("D", "M"), EditRule.mk "sex" (some "1") none none "invalid" none)]) "1" := by
  refine ⟨rfl, rfl, ?_, ?_⟩ <;> decide

/-- C1 (amended): provided every diagnosis appears under at most one CC of
the input dict, a diagnosis with a matching `invalid` rule appears under no
CC of the output of `apply_edits`. -/
theorem apply_edits_invalid_removes (m : Dict String (List String)) (age : Int)
    (sex : String) (model : String) (em : Dict (String × String) EditRule)
    (dx cc0 : String) (rule : EditRule)
    (hnk : NodupKeys m) (hone : AtMostOneCC m)
    (h0 : dx ∈ dxsOf m cc0)
    (hr : dictLookup em (dx, model) = some rule)
    (hs : shouldApply rule age (normalizeSex sex) = true)
    (hi : rule.action = "invalid") :
    ∀ cc, dx ∉ dxsOf (apply_edits m age sex model em) cc := by
  intro cc hmem
  obtain ⟨oc, hall⟩ := buildDxToCC_complete h0
  have hocmem : dx ∈ dxsOf m oc := buildDxToCC_sound hnk hall
  have hrem : dictLookup
      (computeEdits (buildDxToCC m) em age (normalizeSex sex) model).1 dx = some oc := by
    rw [computeEdits_eq]
    exact editsFold_fst_lookup ([], []) (buildDxToCC_nodup m) (dictLookup_mem hall) hr hs hi
  have hovn : dictLookup
      (computeEdits (buildDxToCC m) em age (normalizeSex sex) model).2 dx = none := by
    cases hq : dictLookup
        (computeEdits (buildDxToCC m) em age (normalizeSex sex) model).2 dx with
    | none => rfl
    | some pr =>
      obtain ⟨oc2, nc2⟩ := pr
      exact (computeEdits_not_both hrem hq).elim
  rw [apply_edits_eq,
    mem_dxsOf_applyOverrides_of_ne _ _ _ _ (dictLookup_eq_none_iff.mp hovn),
    mem_dxsOf_applyRemovals] at hmem
  obtain ⟨hmm, hnone⟩ := hmem
  have hcc : cc = oc := hone dx cc oc hmm hocmem
  exact hnone (dx, oc) (dictLookup_mem hrem) ⟨hcc, rfl⟩

/-- C1 witness at a one-CC mapping and a matching sex `invalid` rule. -/
theorem apply_edits_invalid_removes_witness :
    "D" ∉ dxsOf (apply_edits [("1", ["D"])] 50 "1" "M"
        [(("D", "M"), EditRule.mk "sex" (some "1") none none "invalid" none)]) "1" :=
  apply_edits_invalid_removes _ 50 "1" "M"
    [(("D", "M"), EditRule.mk "sex" (some "1") none none "invalid" none)] "D" "1"
    (EditRule.mk "sex" (some "1") none none "invalid" none)
    (by simp [NodupKeys]) (atMostOneCC_singleton "1" "D") (by decide) rfl (by decide) rfl "1"

/-- C2 counterexample: with no applicable edit, `apply_edits` returns a
mapping in which the same diagnosis still sits under two CC keys. -/
theorem apply_edits_atMostOne_cex :
    ¬ AtMostOneCC (apply_edits [("1", ["D"]), ("2", ["D"])] 50 "F" "M" []) := by
  intro h
  have h1 : "D" ∈ dxsOf (apply_edits [("1", ["D"]), ("2", ["D"])] 50 "F" "M" []) "1" := by
    decide
  have h2 : "D" ∈ dxsOf (apply_edits [("1", ["D"]), ("2", ["D"])] 50 "F" "M" []) "2" := by
    decide
  exact absurd (h "D" "1" "2" h1 h2) (by decide)

/-- C2 (amended): `apply_edits` preserves the at-most-one-CC property: if no
diagnosis appears under two CCs of the input dict, none does in the output. -/
theorem apply_edits_preserves_atMostOne (m : Dict String (List String)) (age : Int)
    (sex : String) (model : String) (em : Dict (String × String) EditRule)
    (hnk : NodupKeys m) (hone : AtMostOneCC m) :
    AtMostOneCC (apply_edits m age sex model em) := by
  intro dx cc1 cc2 h1 h2
  cases hrem : dictLookup
      (computeEdits (buildDxToCC m) em age (normalizeSex sex) model).1 dx with
  | some oc =>
    have hovn : dictLookup
        (computeEdits (buildDxToCC m) em age (normalizeSex sex) model).2 dx = none := by
      cases hq : dictLookup
          (computeEdits (buildDxToCC m) em age (normalizeSex sex) model).2 dx with
      | none => rfl
      | some pr =>
        obtain ⟨oc2, nc2⟩ := pr
        exact (computeEdits_not_both hrem hq).elim
    rw [apply_edits_eq,
      mem_dxsOf_applyOverrides_of_ne _ _ _ _ (dictLookup_eq_none_iff.mp hovn),
      mem_dxsOf_applyRemovals] at h1 h2
    exact hone dx cc1 cc2 h1.1 h2.1
  | none =>
    cases hovr : dictLookup
        (computeEdits (buildDxToCC m) em age (normalizeSex sex) model).2 dx with
    | none =>
      rw [apply_edits_eq,
        mem_dxsOf_applyOverrides_of_ne _ _ _ _ (dictLookup_eq_none_iff.mp hovr),
        mem_dxsOf_applyRemovals] at h1 h2
      exact hone dx cc1 cc2 h1.1 h2.1
    | some pr =>
      obtain ⟨oc, nc⟩ := pr
      obtain ⟨hmemall, rule, hrr, hss, hoo, hovv, hnee⟩ := computeEdits_snd_facts hovr
      have hallk : dictLookup (buildDxToCC m) dx = some oc :=
        mem_dictLookup (buildDxToCC_nodup m) hmemall
      have hocmem : dx ∈ dxsOf m oc := buildDxToCC_sound hnk hallk
      have hchar := apply_edits_override_char m age sex model em dx oc nc hrem hovr
      rcases (hchar cc1).mp h1 with hcc1 | ⟨hm1, hno1⟩
      · rcases (hchar cc2).mp h2 with hcc2 | ⟨hm2, hno2⟩
        · rw [hcc1, hcc2]
        · exact absurd (hone dx cc2 oc hm2 hocmem) hno2
      · exact absurd (hone dx cc1 oc hm1 hocmem) hno1

/-- C2 witness at a concrete one-entry dict. -/
theorem apply_edits_preserves_atMostOne_witness :
    AtMostOneCC (apply_edits [("1", ["D"])] 50 "M" "X" []) :=
  apply_edits_preserves_atMostOne _ 50 "M" "X" _ (by simp [NodupKeys])
    (atMostOneCC_singleton "1" "D")

/-- C5 counterexample: when `cc_override` names the very CC the diagnosis was
found under, the diagnosis is re-added there, so it is not "no longer in the
CC it was found under". -/
theorem apply_edits_override_moves_cex :
    (EditRule.mk "sex" (some "1") none none "override" (some "1")).action = "override" ∧
    (EditRule.mk "sex" (some "1") none none "override" (some "1")).cc_override
      = some "1" ∧
    dictLookup (buildDxToCC [("1", ["D"])]) "D" = some "1" ∧
    shouldApply (EditRule.mk "sex" (some "1") none none "override" (some "1")) 50
        (normalizeSex "1") = true ∧
    "D" ∈ dxsOf (apply_edits [("1", ["D"])] 50 "1" "M"
        [(("D", "M"), EditRule.mk "sex" (some "1") none none "override" (some "1"))]) "1" := by
  refine ⟨rfl, rfl, rfl, rfl, ?_⟩
  decide

/-- C5 (amended): for a matching `override` rule with a non-empty target
different from the CC the diagnosis was found under, the diagnosis leaves that
CC and lands in the (possibly newly created) `cc_override` CC. -/
theorem apply_edits_override_moves (m : Dict String (List String)) (age : Int)
    (sex : String) (model : String) (em : Dict (String × String) EditRule)
    (dx oc nc : String) (rule : EditRule)
    (hall : dictLookup (buildDxToCC m) dx = some oc)
    (hr : dictLookup em (dx, model) = some rule)
    (hs : shouldApply rule age (normalizeSex sex) = true)
    (ho : rule.action = "override")
    (hov : rule.cc_override = some nc)
    (hne : nc ≠ "") (hdiff : nc ≠ oc) :
    dx ∉ dxsOf (apply_edits m age sex model em) oc ∧
      ∃ dxs, dictLookup (apply_edits m age sex model em) nc = some dxs ∧ dx ∈ dxs := by
  have hsnd : dictLookup
      (computeEdits (buildDxToCC m) em age (normalizeSex sex) model).2 dx
        = some (oc, nc) := by
    rw [computeEdits_eq]
    exact editsFold_snd_lookup ([], []) (buildDxToCC_nodup m) (dictLookup_mem hall)
      hr hs ho hov hne
  have hfstn : dictLookup
      (computeEdits (buildDxToCC m) em age (normalizeSex sex) model).1 dx = none := by
    cases hq : dictLookup
        (computeEdits (buildDxToCC m) em age (normalizeSex sex) model).1 dx with
    | none => rfl
    | some oc2 => exact (computeEdits_not_both hq hsnd).elim
  have hchar := apply_edits_override_char m age sex model em dx oc nc hfstn hsnd
  constructor
  · intro hmem
    rcases (hchar oc).mp hmem with h1 | h1
    · exact hdiff h1.symm
    · exact h1.2 rfl
  · have hmemnc : dx ∈ dxsOf (apply_edits m age sex model em) nc :=
      (hchar nc).mpr (Or.inl rfl)
    unfold dxsOf at hmemnc
    cases hq : dictLookup (apply_edits m age sex model em) nc with
    | none =>
      rw [hq] at hmemnc
      simp at hmemnc
    | some dxs =>
      rw [hq] at hmemnc
      exact ⟨dxs, rfl, hmemnc⟩

/-- C5 witness: an override to a fresh CC `9` moves the diagnosis there. -/
theorem apply_edits_override_moves_witness :
    "D" ∉ dxsOf (apply_edits [("1", ["D"])] 50 "1" "M"
        [(("D", "M"), EditRule.mk "sex" (some "1") none none "override" (some "9"))]) "1" ∧
      ∃ dxs, dictLookup (apply_edits [("1", ["D"])] 50 "1" "M"
          [(("D", "M"), EditRule.mk "sex" (some "1") none none "override" (some "9"))]) "9"
        = some dxs ∧ "D" ∈ dxs :=
  apply_edits_override_moves _ 50 "1" "M" _ "D" "1" "9"
    (EditRule.mk "sex" (some "1") none none "override" (some "9"))
    rfl rfl (by decide) rfl rfl (by decide) (by decide)

/-- C7: a data line that does not split into exactly three comma-separated
fields is skipped, and the table loads exactly as if that line were absent. -/
theorem load_dx_to_cc_mapping_skips_malformed (header bad : String)
    (pre post : List String) (hbad : parseMappingLine bad = none) :
    load_dx_to_cc_mapping (header :: (pre ++ bad :: post)) =
      load_dx_to_cc_mapping (header :: (pre ++ post)) := by
  unfold load_dx_to_cc_mapping
  have hd1 : (header :: (pre ++ bad :: post)).drop 1 = pre ++ bad :: post := rfl
  have hd2 : (header :: (pre ++ post)).drop 1 = pre ++ post := rfl
  rw [hd1, hd2]
  unfold loadRows
  rw [List.foldl_append, List.foldl_append, List.foldl_cons, loadRow_none hbad]

/-- C7 witness: one garbage row between two good rows changes nothing. -/
theorem load_dx_to_cc_mapping_skips_malformed_witness :
    parseMappingLine "garbage" = none ∧
    load_dx_to_cc_mapping ("header" :: (["A,1,M"] ++ "garbage" :: ["B,2,M"])) =
      load_dx_to_cc_mapping ("header" :: (["A,1,M"] ++ ["B,2,M"])) :=
  ⟨by decide, load_dx_to_cc_mapping_skips_malformed "header" "garbage"
    ["A,1,M"] ["B,2,M"] (by decide)⟩

/-- C8: the loaded table holds, under `(diagnosis, model)`, exactly the CCs of
all well-formed data lines with that key — several lines accumulate. -/
theorem load_dx_to_cc_mapping_collects_ccs (lines : List String) (dx model cc : String) :
    cc ∈ (dictLookup (load_dx_to_cc_mapping lines) (dx, model)).getD [] ↔
      ∃ line ∈ lines.drop 1, parseMappingLine line = some (dx, cc, model) := by
  unfold load_dx_to_cc_mapping
  rw [mem_loadRows]
  simp

end HCCInFHIR
